import Mathlib

/-!
Shallow embedding of the `apply_method` Rust crate (src/lib.rs).

The crate defines a trait `Applicable` with a blanket implementation for
every type `T`, offering three combinators:

  fn apply<F, R>(self, f: F) -> Self where F: FnOnce(&mut Self) -> R
  fn apply_with_param<F, P, R>(self, f: F, p: P) -> Self
      where F: FnOnce(&mut Self, P) -> R
  fn apply_with_params<F, P, R>(self, f: F, p: Vec<P>) -> Self
      where F: Fn(&mut Self, P) -> R

A Rust mutation `FnOnce(&mut T) -> R` is embedded as a state-passing
function `T → T × R`: the first component is the value after the in-place
mutation, the second is the discarded return value.  A mutation with an
extra parameter becomes `T → P → T × R`.  Panics (the only failure mode
the combinators can meet) are embedded by letting the mutation return
`Except E (T × R)`.
-/

namespace Applicable

/-- Embedding of `Applicable::apply` (src/lib.rs lines 99-106):
`let mut receiver = self; f(&mut receiver); receiver`.  The return value
of `f` is discarded. -/
def apply {T R : Type} (v : T) (f : T → T × R) : T :=
  let receiver := v
  let call := f receiver
  (fun st => st.1) call

/-- Embedding of `Applicable::apply_with_param` (src/lib.rs lines 108-115):
`let mut receiver = self; f(&mut receiver, p); receiver`. -/
def apply_with_param {T P R : Type} (v : T) (f : T → P → T × R) (p : P) : T :=
  let receiver := v
  let call := f receiver p
  (fun st => st.1) call

/-- Embedding of `Applicable::apply_with_params` (src/lib.rs lines 117-126):
`let mut receiver = self; for param in p { f(&mut receiver, param); } receiver`.
The for loop threading the mutable receiver is a left fold over the
parameter vector. -/
def apply_with_params {T P R : Type} (v : T) (f : T → P → T × R) (ps : List P) : T :=
  ps.foldl (fun receiver param => (f receiver param).1) v

/-- Fallible embedding of the same `apply_with_params` loop when the
mutation may fail (a Rust panic unwinding out of `f`): a failing
invocation aborts the loop and the failure propagates to the caller
untouched, because the loop body contains no handler. -/
def apply_with_paramsE {T P R E : Type} (f : T → P → Except E (T × R)) :
    T → List P → Except E T
  | v, [] => Except.ok v
  | v, p :: rest =>
    match f v p with
    | Except.error e => Except.error e
    | Except.ok vr => apply_with_paramsE f vr.1 rest

/-! Instrumentation used to observe how often, in which order, and on
which intermediate values the combinators invoke the supplied mutation.
Because the Rust combinators are generic in the receiver type, the
instrumented runs below are instances of the very same definitions,
taken at a receiver type that carries a call log. -/

/-- Lift a mutation to a receiver paired with a call counter; each
invocation increments the counter. -/
def countingF {T R : Type} (f : T → T × R) : T × Nat → (T × Nat) × R :=
  fun s => (((f s.1).1, s.2 + 1), (f s.1).2)

/-- Lift a parameterised mutation to a receiver paired with a log; each
invocation appends the pair (parameter passed, value received). -/
def loggingF {T P R : Type} (f : T → P → T × R) :
    (T × List (P × T)) → P → (T × List (P × T)) × R :=
  fun s p => (((f s.1 p).1, s.2 ++ [(p, s.1)]), (f s.1 p).2)

/-- Lift a fallible parameterised mutation to a receiver paired with a
log of the parameters consumed so far; on failure the error carries the
final log. -/
def loggingE {T P R E : Type} (f : T → P → Except E (T × R)) :
    (T × List P) → P → Except (E × List P) ((T × List P) × R) :=
  fun s p =>
    match f s.1 p with
    | Except.error e => Except.error (e, s.2 ++ [p])
    | Except.ok vr => Except.ok ((vr.1, s.2 ++ [p]), vr.2)

/-- The sequence of invocations a run of `apply_with_params` performs:
for each parameter, in order, the pair (parameter, value the invocation
receives), where the received value is the input as mutated by all prior
invocations. -/
def invocationLog {T P R : Type} (f : T → P → T × R) : T → List P → List (P × T)
  | _, [] => []
  | v, p :: rest => (p, v) :: invocationLog f ((f v p).1) rest

/-- Spec-side definition for claim C1, following the specification text:
bind `v` to a mutable local, call `f` on it once, read the local back.
In state-passing form the local starts as `v`, the call replaces it by
the mutated value, and the read returns that value. -/
def manualApplySpec {T R : Type} (v : T) (f : T → T × R) : T :=
  let localVar := v
  let localVar := (f localVar).1
  localVar

/-- Spec-side definition for claim C6, following the specification text:
apply `f1` then `f2` in sequence to the same starting value. -/
def sequentialApplySpec {T R1 R2 : Type} (v : T) (f1 : T → T × R1) (f2 : T → T × R2) : T :=
  let afterFirst := (f1 v).1
  let afterSecond := (f2 afterFirst).1
  afterSecond

theorem apply_def {T R : Type} (v : T) (f : T → T × R) :
    apply v f = (f v).1 := rfl

theorem apply_with_params_nil {T P R : Type} (v : T) (f : T → P → T × R) :
    apply_with_params v f ([] : List P) = v := rfl

theorem apply_with_params_cons {T P R : Type} (v : T) (f : T → P → T × R)
    (p : P) (rest : List P) :
    apply_with_params v f (p :: rest) = apply_with_params ((f v p).1) f rest := rfl

theorem apply_with_paramsE_nil {T P R E : Type} (f : T → P → Except E (T × R)) (v : T) :
    apply_with_paramsE f v ([] : List P) = Except.ok v := rfl

theorem apply_with_paramsE_cons_ok {T P R E : Type} (f : T → P → Except E (T × R))
    (v : T) (p : P) (rest : List P) (vr : T × R) (h : f v p = Except.ok vr) :
    apply_with_paramsE f v (p :: rest) = apply_with_paramsE f vr.1 rest := by
  rw [apply_with_paramsE, h]

theorem apply_with_paramsE_cons_err {T P R E : Type} (f : T → P → Except E (T × R))
    (v : T) (p : P) (rest : List P) (e : E) (h : f v p = Except.error e) :
    apply_with_paramsE f v (p :: rest) = Except.error e := by
  rw [apply_with_paramsE, h]

theorem loggingE_ok {T P R E : Type} (f : T → P → Except E (T × R))
    (v : T) (log : List P) (p : P) (vr : T × R) (h : f v p = Except.ok vr) :
    loggingE f (v, log) p = Except.ok ((vr.1, log ++ [p]), vr.2) := by
  rw [loggingE]
  simp [h]

theorem loggingE_err {T P R E : Type} (f : T → P → Except E (T × R))
    (v : T) (log : List P) (p : P) (e : E) (h : f v p = Except.error e) :
    loggingE f (v, log) p = Except.error (e, log ++ [p]) := by
  rw [loggingE]
  simp [h]

theorem invocationLog_params {T P R : Type} (f : T → P → T × R) (v : T) (ps : List P) :
    (invocationLog f v ps).map Prod.fst = ps := by
  induction ps generalizing v with
  | nil => rfl
  | cons p rest ih => simp [invocationLog, ih]

theorem logged_run {T P R : Type} (f : T → P → T × R) (v : T)
    (log : List (P × T)) (ps : List P) :
    apply_with_params (v, log) (loggingF f) ps
      = (apply_with_params v f ps, log ++ invocationLog f v ps) := by
  induction ps generalizing v log with
  | nil => simp [apply_with_params, invocationLog]
  | cons p rest ih =>
    rw [apply_with_params_cons, apply_with_params_cons, invocationLog]
    show apply_with_params ((f v p).1, log ++ [(p, v)]) (loggingF f) rest = _
    rw [ih]
    simp

theorem loggedE_run {T P R E : Type} (f : T → P → Except E (T × R))
    (v : T) (log ps1 : List P) (v1 : T)
    (hpre : apply_with_paramsE f v ps1 = Except.ok v1) :
    apply_with_paramsE (loggingE f) (v, log) ps1
      = Except.ok (v1, log ++ ps1) := by
  induction ps1 generalizing v log with
  | nil =>
    rw [apply_with_paramsE_nil] at hpre
    simp only [Except.ok.injEq] at hpre
    rw [apply_with_paramsE_nil, hpre]
    simp
  | cons p rest ih =>
    rw [apply_with_paramsE] at hpre
    cases hfvp : f v p with
    | error e => rw [hfvp] at hpre; exact absurd hpre (by simp)
    | ok vr =>
      rw [hfvp] at hpre
      rw [apply_with_paramsE_cons_ok (loggingE f) (v, log) p rest
        ((vr.1, log ++ [p]), vr.2) (loggingE_ok f v log p vr hfvp)]
      rw [ih vr.1 (log ++ [p]) hpre]
      simp

/-- Claim C1: for every value v and every mutation f whose only effect is
an in-place change to its argument, apply v f returns a result observably
equal to the value obtained by binding v to a mutable local, calling f on
it, and reading it back. -/
theorem apply_eq_manual {T R : Type} (v : T) (f : T → T × R) :
    apply v f = manualApplySpec v f := rfl

/-- Claim C2: for every value v, mutation f and parameter sequence ps,
apply_with_params v f ps invokes f exactly once per parameter, strictly
in the order of ps, each invocation receiving the value as mutated by all
prior invocations in the same call, and returns the left fold of f over
ps starting from v.  The instrumented run (the same generic combinator at
a log-carrying receiver type) records exactly the invocation log, whose
parameter projection is ps itself and whose value components are the
successive intermediate folds. -/
theorem apply_with_params_invocations {T P R : Type} (f : T → P → T × R)
    (v : T) (ps : List P) :
    apply_with_params (v, ([] : List (P × T))) (loggingF f) ps
        = (ps.foldl (fun t p => (f t p).1) v, invocationLog f v ps)
      ∧ (invocationLog f v ps).map Prod.fst = ps
      ∧ apply_with_params v f ps = ps.foldl (fun t p => (f t p).1) v := by
  refine ⟨?_, invocationLog_params f v ps, rfl⟩
  rw [logged_run]
  simp [apply_with_params]

/-- Claim C3: apply_with_param v f p behaves identically to apply v g for
the closure g that calls f with the extra parameter p: the same value is
returned and p is forwarded unchanged to the single invocation of f. -/
theorem apply_with_param_eq_apply_closure {T P R : Type} (v : T)
    (f : T → P → T × R) (p : P) :
    apply_with_param v f p = apply v (fun target => f target p) := rfl

/-- Claim C4: apply_with_params with the two-element sequence p1, p2
equals calling apply_with_param twice in sequence, with p1 then p2. -/
theorem apply_with_params_pair {T P R : Type} (v : T) (f : T → P → T × R)
    (p1 p2 : P) :
    apply_with_params v f [p1, p2]
      = apply_with_param (apply_with_param v f p1) f p2 := rfl

/-- Claim C5: apply_with_params with an empty parameter sequence is a
no-op: the result is the input value unchanged and f is never invoked
(the instrumented run records an empty invocation log). -/
theorem apply_with_params_empty_noop {T P R : Type} (v : T) (f : T → P → T × R) :
    apply_with_params v f ([] : List P) = v
      ∧ apply_with_params (v, ([] : List (P × T))) (loggingF f) ([] : List P)
          = (v, []) := ⟨rfl, rfl⟩

/-- Claim C6: chained application apply (apply v f1) f2 equals applying
f1 then f2, in that order, starting from v; composition order is
preserved. -/
theorem apply_chain {T R1 R2 : Type} (v : T) (f1 : T → T × R1) (f2 : T → T × R2) :
    apply (apply v f1) f2 = sequentialApplySpec v f1 f2 := rfl

/-- Claim C7: apply v f invokes f exactly once before returning, and the
same holds for apply_with_param: running the same generic combinators at
a counter-carrying receiver type increments the counter by exactly one
while producing the uninstrumented result. -/
theorem apply_invokes_once {T P R : Type} (v : T) (c : Nat) (f : T → T × R)
    (g : T → P → T × R) (p : P) :
    apply (v, c) (countingF f) = (apply v f, c + 1)
      ∧ apply_with_param (v, c) (fun s q => countingF (fun t => g t q) s) p
          = (apply_with_param v g p, c + 1) := ⟨rfl, rfl⟩

theorem loggedE_fail {T P R E : Type} (f : T → P → Except E (T × R))
    (v v1 : T) (p : P) (log ps1 ps2 : List P) (e : E)
    (hpre : apply_with_paramsE f v ps1 = Except.ok v1)
    (hfail : f v1 p = Except.error e) :
    apply_with_paramsE (loggingE f) (v, log) (ps1 ++ p :: ps2)
      = Except.error (e, log ++ ps1 ++ [p]) := by
  induction ps1 generalizing v log with
  | nil =>
    rw [apply_with_paramsE_nil] at hpre
    simp only [Except.ok.injEq] at hpre
    subst hpre
    rw [List.nil_append,
      apply_with_paramsE_cons_err (loggingE f) (v, log) p ps2 (e, log ++ [p])
        (loggingE_err f v log p e hfail)]
    simp
  | cons q rest ih =>
    rw [apply_with_paramsE] at hpre
    cases hfvq : f v q with
    | error e0 => rw [hfvq] at hpre; exact absurd hpre (by simp)
    | ok vr =>
      rw [hfvq] at hpre
      rw [List.cons_append,
        apply_with_paramsE_cons_ok (loggingE f) (v, log) q (rest ++ p :: ps2)
          ((vr.1, log ++ [q]), vr.2) (loggingE_ok f v log q vr hfvq)]
      rw [ih vr.1 (log ++ [q]) hpre]
      simp

/-- Claim C8: if the invocation of f for some parameter p fails after the
prefix ps1 has succeeded (reaching value v1), then apply_with_params
propagates exactly that failure, regardless of the remaining parameters
ps2, and the instrumented run shows that only the parameters of ps1
followed by p were ever consumed: the parameters after the failing one
are never processed, and the error is handed to the caller untouched. -/
theorem apply_with_params_fail_fast {T P R E : Type}
    (f : T → P → Except E (T × R)) (v v1 : T) (p : P) (ps1 ps2 : List P) (e : E)
    (hpre : apply_with_paramsE f v ps1 = Except.ok v1)
    (hfail : f v1 p = Except.error e) :
    apply_with_paramsE f v (ps1 ++ p :: ps2) = Except.error e
      ∧ apply_with_paramsE (loggingE f) (v, ([] : List P)) (ps1 ++ p :: ps2)
          = Except.error (e, ps1 ++ [p]) := by
  constructor
  · induction ps1 generalizing v with
    | nil =>
      rw [apply_with_paramsE_nil] at hpre
      simp only [Except.ok.injEq] at hpre
      subst hpre
      rw [List.nil_append, apply_with_paramsE_cons_err f v p ps2 e hfail]
    | cons q rest ih =>
      rw [apply_with_paramsE] at hpre
      cases hfvq : f v q with
      | error e0 => rw [hfvq] at hpre; exact absurd hpre (by simp)
      | ok vr =>
        rw [hfvq] at hpre
        rw [List.cons_append, apply_with_paramsE_cons_ok f v q (rest ++ p :: ps2) vr hfvq]
        exact ih vr.1 hpre
  · have h := loggedE_fail f v v1 p [] ps1 ps2 e hpre hfail
    rw [h]
    simp

/-- Claim C9: all three operations discard the return value of the
mutation: if f and g perform the same in-place effect but return
different values (possibly of different types), each operation yields the
same result for f as for g. -/
theorem apply_discards_return {T P R1 R2 : Type} (v : T)
    (f : T → T × R1) (g : T → T × R2)
    (fp : T → P → T × R1) (gp : T → P → T × R2) (p : P) (ps : List P)
    (h : ∀ t, (f t).1 = (g t).1)
    (hp : ∀ t q, (fp t q).1 = (gp t q).1) :
    apply v f = apply v g
      ∧ apply_with_param v fp p = apply_with_param v gp p
      ∧ apply_with_params v fp ps = apply_with_params v gp ps := by
  refine ⟨h v, hp v p, ?_⟩
  induction ps generalizing v with
  | nil => rfl
  | cons q rest ih =>
    rw [apply_with_params_cons, apply_with_params_cons, hp v q]
    exact ih ((gp v q).1)

/-- Claim C10: apply_with_params is a homomorphism with respect to list
concatenation, and on a singleton list it agrees with
apply_with_param. -/
theorem apply_with_params_append {T P R : Type} (v : T) (f : T → P → T × R)
    (ps1 ps2 : List P) (p : P) :
    apply_with_params v f (ps1 ++ ps2)
        = apply_with_params (apply_with_params v f ps1) f ps2
      ∧ apply_with_params v f [p] = apply_with_param v f p := by
  refine ⟨?_, rfl⟩
  simp only [apply_with_params]
  exact List.foldl_append _ _ _ _

/-! Closed witnesses: the two claim theorems above that carry hypotheses,
instantiated at concrete inputs with every hypothesis discharged by
evaluation. -/

theorem apply_with_params_fail_fast_witness :
    apply_with_paramsE
        (fun (t : Nat) (q : Nat) => if q = 0 then Except.error t else Except.ok (t + q, t))
        1 ([2, 3] ++ 0 :: [5, 7]) = Except.error 6
      ∧ apply_with_paramsE
          (loggingE (fun (t : Nat) (q : Nat) =>
            if q = 0 then Except.error t else Except.ok (t + q, t)))
          (1, ([] : List Nat)) ([2, 3] ++ 0 :: [5, 7])
          = Except.error (6, [2, 3] ++ [0]) :=
  apply_with_params_fail_fast
    (fun (t : Nat) (q : Nat) => if q = 0 then Except.error t else Except.ok (t + q, t))
    1 6 0 [2, 3] [5, 7] 6 rfl rfl

theorem apply_discards_return_witness :
    apply 4 (fun t : Nat => (t + 1, ())) = apply 4 (fun t : Nat => (t + 1, t))
      ∧ apply_with_param 4 (fun (t : Nat) (q : Nat) => (t + q, ())) 2
          = apply_with_param 4 (fun (t : Nat) (q : Nat) => (t + q, t)) 2
      ∧ apply_with_params 4 (fun (t : Nat) (q : Nat) => (t + q, ())) [2, 3]
          = apply_with_params 4 (fun (t : Nat) (q : Nat) => (t + q, t)) [2, 3] :=
  apply_discards_return 4
    (fun t : Nat => (t + 1, ())) (fun t : Nat => (t + 1, t))
    (fun (t : Nat) (q : Nat) => (t + q, ())) (fun (t : Nat) (q : Nat) => (t + q, t))
    2 [2, 3] (fun _ => rfl) (fun _ _ => rfl)

end Applicable
